import Mathlib

/-!
Verification of the NBT (Named Binary Tag) codec in `src/types/nbt.rs` of
`hematite_server`.

Shallow embedding conventions:
* Machine integers are modelled by their bit patterns as `Nat` (an `i8` is a
  `Nat < 2^8`, an `i32` a `Nat < 2^32`, ...); the big-endian byte emission
  truncates exactly like the Rust `as` casts do.
* `f32`/`f64` are modelled by their raw 32 and 64 bit IEEE patterns, which
  is what `write_f32::<BigEndian>`/`read_f32::<BigEndian>` transport.
* Rust `String`s are modelled as their UTF-8 byte sequences (`List Nat`),
  together with the `validUtf8` predicate that `String::from_utf8` enforces.
* `HashMap<String, NbtValue>` is modelled as an association list recording
  the map's (implementation-defined) iteration order; `hmInsert` mirrors
  `HashMap::insert` (replace the binding, return the previous value).
* A byte sink (`Vec<u8>` via `io::Write`) never fails, so `NbtValue::write`
  returns the emitted bytes together with an optional error; on an error the
  first component holds the bytes already written (they are not rolled back).
* A byte source is the remaining input `List Nat`; every read returns either
  the value with the rest of the input, or an error paired with the input
  that remained un-consumed at the failure point.  Truncated input surfaces
  as an `unexpected EOF` I/O error (byteorder's `UnexpectedEOF`), whose kind
  differs from `InvalidInput`.
* The `Compound` reading loop is not structurally recursive, so the decoder
  carries a fuel argument; `NbtBlob.fromReader` instantiates it with
  `input length + 1`, which the loop (consuming at least one byte per
  iteration) can never exhaust.
-/

/-- A byte sequence (each entry is one byte, `< 256` whenever produced by the
encoder). -/
abbrev Bytes := List Nat

/-- A Rust `String`, modelled as its UTF-8 bytes. -/
abbrev RStr := List Nat

/-- The two classes of `std::io::ErrorKind` this codec distinguishes:
`InvalidInput` (used by every format violation in `nbt.rs`) and every other
I/O kind (truncation / transport failures). -/
inductive ErrorKind where
  | invalidInput : ErrorKind
  | otherIo : ErrorKind
deriving DecidableEq, Repr

/-- `std::io::Error`, restricted to what `nbt.rs` constructs and observes:
a kind, a description and an optional detail string
(`io::Error::new(kind, desc, detail)`). -/
structure IoError where
  kind : ErrorKind
  desc : String
  detail : Option String
deriving DecidableEq, Repr

/-- The error of `io::Error::new(InvalidInput, "List values must be
homogeneous", None)` raised in `NbtValue::write` (nbt.rs line 122). -/
def hetErr : IoError := ⟨.invalidInput, "List values must be homogeneous", none⟩

/-- The error of `io::Error::new(InvalidInput, "invalid NbtValue id", None)`
raised in `NbtValue::from_reader` (nbt.rs line 228). -/
def invalidIdErr : IoError := ⟨.invalidInput, "invalid NbtValue id", none⟩

/-- The error of `io::Error::new(InvalidInput, "string is not UTF-8", ...)`
raised when decoded bytes fail UTF-8 validation (nbt.rs lines 167, 198). -/
def utf8Err : IoError := ⟨.invalidInput, "string is not UTF-8", some "invalid UTF-8 sequence"⟩

/-- The error of `io::Error::new(InvalidInput, "invalid NBT file",
Some("root value must be a Compound (0x0a)"))` raised by
`NbtBlob::from_reader` (nbt.rs lines 276-277). -/
def rootErr : IoError := ⟨.invalidInput, "invalid NBT file", some "root value must be a Compound (0x0a)"⟩

/-- Truncated input: byteorder's `Error::UnexpectedEOF`, converted by its
`From` impl into an `io::Error` whose kind is not `InvalidInput`.  Modelled
from the spec: "any truncated-input condition from the byte source surfaces
as an I/O error distinct from format-violation errors" (the conversion lives
in the byteorder crate, outside `src/`). -/
def eofErr : IoError := ⟨.otherIo, "unexpected EOF", none⟩

/-- Fuel exhaustion: an artifact of the embedding only; unreachable whenever
the decoder is run with fuel exceeding the value's encoded length, as
`NbtBlob.fromReader` does. -/
def fuelErr : IoError := ⟨.otherIo, "fuel exhausted", none⟩

/-- byteorder's error type: either a wrapped `io::Error` or `UnexpectedEOF`
(a short read/write detected by the byteorder layer, e.g. a sink accepting
zero bytes when full). -/
inductive ByteorderError where
  | unexpectedEOF : ByteorderError
  | io : IoError → ByteorderError
deriving DecidableEq, Repr

/-- The wrapping of a byteorder result into an `io::Result` performed at the
end of `NbtValue::write` (nbt.rs lines 147-153): `UnexpectedEOF` becomes
`io::Error::new(InvalidInput, "invalid byte ordering", None)` and a wrapped
`io::Error` propagates unchanged. -/
def wrapByteorderResult : Option ByteorderError → Option IoError
  | some .unexpectedEOF => some ⟨.invalidInput, "invalid byte ordering", none⟩
  | some (.io e) => some e
  | none => none

/-- Big-endian bytes of a `u16` (`write_u16::<BigEndian>`); values `≥ 2^16`
are truncated exactly like an `as u16` cast. -/
def u16be (n : Nat) : List Nat := [n / 256 % 256, n % 256]

/-- Big-endian bytes of a `u32`/`i32` bit pattern (`write_i32::<BigEndian>`).
-/
def u32be (n : Nat) : List Nat :=
  [n / 2 ^ 24 % 256, n / 2 ^ 16 % 256, n / 2 ^ 8 % 256, n % 256]

/-- Big-endian bytes of a `u64`/`i64` bit pattern (`write_i64::<BigEndian>`).
-/
def u64be (n : Nat) : List Nat :=
  [n / 2 ^ 56 % 256, n / 2 ^ 48 % 256, n / 2 ^ 40 % 256, n / 2 ^ 32 % 256,
   n / 2 ^ 24 % 256, n / 2 ^ 16 % 256, n / 2 ^ 8 % 256, n % 256]

/-- The `as usize` cast applied to a decoded `i32` length (nbt.rs lines 186,
203, 221) on the 64-bit targets the server compiles for: a bit pattern with
the high bit set sign-extends to a huge unsigned count. -/
def i32AsUsize (n : Nat) : Nat :=
  if n < 2 ^ 31 then n else 2 ^ 64 - 2 ^ 32 + n

/-- A value of the Named Binary Tag format: the eleven-case variant of
`enum NbtValue` in nbt.rs (lines 21-33). -/
inductive NbtValue where
  | byte : Nat → NbtValue
  | short : Nat → NbtValue
  | int : Nat → NbtValue
  | long : Nat → NbtValue
  | float : Nat → NbtValue
  | double : Nat → NbtValue
  | byteArray : List Nat → NbtValue
  | string : RStr → NbtValue
  | list : List NbtValue → NbtValue
  | compound : List (RStr × NbtValue) → NbtValue
  | intArray : List Nat → NbtValue
deriving Repr

/-- `NbtValue::id` (nbt.rs lines 38-52): the one-byte type tag. -/
def NbtValue.id : NbtValue → Nat
  | .byte _ => 0x01
  | .short _ => 0x02
  | .int _ => 0x03
  | .long _ => 0x04
  | .float _ => 0x05
  | .double _ => 0x06
  | .byteArray _ => 0x07
  | .string _ => 0x08
  | .list _ => 0x09
  | .compound _ => 0x0a
  | .intArray _ => 0x0b

mutual

/-- `NbtValue::len` (nbt.rs lines 55-77): the payload length in bytes. -/
def NbtValue.len : NbtValue → Nat
  | .byte _ => 1
  | .short _ => 2
  | .int _ => 4
  | .long _ => 8
  | .float _ => 4
  | .double _ => 8
  | .byteArray l => 4 + l.length
  | .string s => 2 + s.length
  | .list vs => 5 + lenSum vs
  | .compound es => lenEntries es + 1
  | .intArray l => 4 + 4 * l.length

/-- The iterator sum `vals.iter().map(|x| x.len()).sum()` over list
elements. -/
def lenSum : List NbtValue → Nat
  | [] => 0
  | v :: vs => v.len + lenSum vs

/-- The iterator sum over compound entries: `3 + name.len() + nbt.len()` for
each entry. -/
def lenEntries : List (RStr × NbtValue) → Nat
  | [] => 0
  | (n, v) :: es => (3 + n.length + v.len) + lenEntries es

end

/-- `NbtValue::write_header` (nbt.rs lines 81-85): one tag byte, a 2-byte
big-endian name length (`title.len() as u16`), then the raw name bytes.
Writing to a byte buffer cannot fail. -/
def NbtValue.writeHeader (v : NbtValue) (title : RStr) : List Nat :=
  v.id :: u16be title.length ++ title

mutual

/-- `NbtValue::write` (nbt.rs lines 88-154) against an infallible byte
buffer: returns the emitted bytes and the error, if any.  On an error the
emitted bytes are the ones already written to the sink before the failure.
-/
def NbtValue.write : NbtValue → List Nat × Option IoError
  | .byte n => ([n % 256], none)
  | .short n => (u16be n, none)
  | .int n => (u32be n, none)
  | .long n => (u64be n, none)
  | .float n => (u32be n, none)
  | .double n => (u64be n, none)
  | .byteArray l => (u32be l.length ++ l.map (· % 256), none)
  | .string s => (u16be s.length ++ s, none)
  | .list vs =>
    match vs with
    | [] => ([1, 0, 0, 0, 0], none)
    | v0 :: _ =>
      match writeElems v0.id vs with
      | (bs, e) => (v0.id :: u32be vs.length ++ bs, e)
  | .compound es => writeEntries es
  | .intArray l => (u32be l.length ++ (l.map u32be).flatten, none)

/-- The element loop of the `List` case of `NbtValue::write` (nbt.rs lines
119-126): each element's tag is compared against the first element's tag
before its payload is written; a mismatch aborts with `hetErr`, keeping the
bytes already emitted. -/
def writeElems : Nat → List NbtValue → List Nat × Option IoError
  | _, [] => ([], none)
  | fid, v :: vs =>
    if v.id = fid then
      match NbtValue.write v with
      | (bs, none) =>
        match writeElems fid vs with
        | (bs2, e) => (bs ++ bs2, e)
      | (bs, some e) => (bs, some e)
    else ([], some hetErr)

/-- The entry loop of the `Compound` case of `NbtValue::write` (nbt.rs lines
130-138): header then payload for each entry, then the `0x00` terminator. -/
def writeEntries : List (RStr × NbtValue) → List Nat × Option IoError
  | [] => ([0], none)
  | (name, v) :: es =>
    match NbtValue.write v with
    | (bs, none) =>
      match writeEntries es with
      | (bs2, e) => (NbtValue.writeHeader v name ++ bs ++ bs2, e)
    | (bs, some e) => (NbtValue.writeHeader v name ++ bs, some e)

end

/-- The result of reading from a byte source: the value and the remaining
input, or an error paired with the input left un-consumed at the failure. -/
abbrev RRes (α : Type) := Except (IoError × Bytes) (α × Bytes)

/-- Sequencing of reads: propagate the error, otherwise continue on the
remaining input (the `try!` chaining in nbt.rs). -/
def rbind {α β : Type} (r : RRes α) (f : α → Bytes → RRes β) : RRes β :=
  match r with
  | .error e => .error e
  | .ok (a, s) => f a s

/-- `read_u8`/`read_i8` (byteorder): one byte, or `UnexpectedEOF` when the
source is exhausted. -/
def readU8 : Bytes → RRes Nat
  | [] => .error (eofErr, [])
  | b :: r => .ok (b, r)

/-- `read_u16::<BigEndian>`/`read_i16::<BigEndian>` (byteorder). -/
def readU16be : Bytes → RRes Nat
  | b0 :: b1 :: r => .ok (b0 * 256 + b1, r)
  | _ => .error (eofErr, [])

/-- `read_u32/i32/f32::<BigEndian>` (byteorder): the 32-bit big-endian bit
pattern. -/
def readU32be : Bytes → RRes Nat
  | b0 :: b1 :: b2 :: b3 :: r =>
    .ok (b0 * 2 ^ 24 + b1 * 2 ^ 16 + b2 * 2 ^ 8 + b3, r)
  | _ => .error (eofErr, [])

/-- `read_u64/i64/f64::<BigEndian>` (byteorder): the 64-bit big-endian bit
pattern. -/
def readU64be : Bytes → RRes Nat
  | b0 :: b1 :: b2 :: b3 :: b4 :: b5 :: b6 :: b7 :: r =>
    .ok (b0 * 2 ^ 56 + b1 * 2 ^ 48 + b2 * 2 ^ 40 + b3 * 2 ^ 32 +
         b4 * 2 ^ 24 + b5 * 2 ^ 16 + b6 * 2 ^ 8 + b7, r)
  | _ => .error (eofErr, [])

/-- Modelled from the spec: `util::ReadExactExt::read_exact` (this
repository's helper, not under `src/`): reads exactly `n` bytes; a
truncated source surfaces as an I/O error distinct from format-violation
errors. -/
def readExact : Nat → Bytes → RRes Bytes
  | 0, src => .ok ([], src)
  | _ + 1, [] => .error (eofErr, [])
  | n + 1, b :: s => rbind (readExact n s) fun bs s2 => .ok (b :: bs, s2)

/-- The ByteArray element loop of `NbtValue::from_reader` (nbt.rs lines
187-190): `len` consecutive `read_i8` calls. -/
def readI8s : Nat → Bytes → RRes (List Nat)
  | 0, src => .ok ([], src)
  | n + 1, src =>
    rbind (readU8 src) fun b s =>
      rbind (readI8s n s) fun bs s2 => .ok (b :: bs, s2)

/-- The IntArray element loop of `NbtValue::from_reader` (nbt.rs lines
222-225): `len` consecutive `read_i32::<BigEndian>` calls. -/
def readU32s : Nat → Bytes → RRes (List Nat)
  | 0, src => .ok ([], src)
  | n + 1, src =>
    rbind (readU32be src) fun b s =>
      rbind (readU32s n s) fun bs s2 => .ok (b :: bs, s2)

/-- One byte of a multi-byte UTF-8 sequence: `0x80..=0xBF`. -/
def contByte (b : Nat) : Bool := decide (0x80 ≤ b ∧ b ≤ 0xbf)

/-- UTF-8 validity of a byte sequence per RFC 3629 (what Rust's
`String::from_utf8` enforces, and what every Rust `String` satisfies by
construction). -/
def validUtf8 : Bytes → Bool
  | [] => true
  | b :: rest =>
    if b ≤ 0x7f then validUtf8 rest
    else if 0xc2 ≤ b ∧ b ≤ 0xdf then
      match rest with
      | c1 :: r => contByte c1 && validUtf8 r
      | [] => false
    else if b = 0xe0 then
      match rest with
      | c1 :: c2 :: r => decide (0xa0 ≤ c1 ∧ c1 ≤ 0xbf) && contByte c2 && validUtf8 r
      | _ => false
    else if (0xe1 ≤ b ∧ b ≤ 0xec) ∨ b = 0xee ∨ b = 0xef then
      match rest with
      | c1 :: c2 :: r => contByte c1 && contByte c2 && validUtf8 r
      | _ => false
    else if b = 0xed then
      match rest with
      | c1 :: c2 :: r => decide (0x80 ≤ c1 ∧ c1 ≤ 0x9f) && contByte c2 && validUtf8 r
      | _ => false
    else if b = 0xf0 then
      match rest with
      | c1 :: c2 :: c3 :: r =>
        decide (0x90 ≤ c1 ∧ c1 ≤ 0xbf) && contByte c2 && contByte c3 && validUtf8 r
      | _ => false
    else if 0xf1 ≤ b ∧ b ≤ 0xf3 then
      match rest with
      | c1 :: c2 :: c3 :: r => contByte c1 && contByte c2 && contByte c3 && validUtf8 r
      | _ => false
    else if b = 0xf4 then
      match rest with
      | c1 :: c2 :: c3 :: r =>
        decide (0x80 ≤ c1 ∧ c1 ≤ 0x8f) && contByte c2 && contByte c3 && validUtf8 r
      | _ => false
    else false

/-- `NbtValue::read_header` (nbt.rs lines 158-173): a tag byte; on the
`0x00` terminator return immediately with an empty name; otherwise a 2-byte
name length, that many name bytes, validated as UTF-8. -/
def NbtValue.readHeader (src : Bytes) : RRes (Nat × RStr) :=
  rbind (readU8 src) fun id s =>
    if id = 0 then .ok ((0, []), s)
    else
      rbind (readU16be s) fun nameLen s2 =>
        if nameLen ≠ 0 then
          rbind (readExact nameLen s2) fun bytes s3 =>
            if validUtf8 bytes then .ok ((id, bytes), s3)
            else .error (utf8Err, s3)
        else .ok ((id, []), s2)

/-- `HashMap::insert` on the association-list model: replace the binding of
an existing key (returning the previous value) or append a new one. -/
def hmInsert : List (RStr × NbtValue) → RStr → NbtValue →
    List (RStr × NbtValue) × Option NbtValue
  | [], n, v => ([(n, v)], none)
  | (k, w) :: rest, n, v =>
    if k = n then ((k, v) :: rest, some w)
    else
      match hmInsert rest n v with
      | (m, prev) => ((k, w) :: m, prev)

/-- `HashMap::get` on the association-list model. -/
def hmGet : List (RStr × NbtValue) → RStr → Option NbtValue
  | [], _ => none
  | (k, w) :: rest, n => if k = n then some w else hmGet rest n

mutual

/-- `NbtValue::from_reader` (nbt.rs lines 177-230): decode one payload of
the given tag id.  The fuel argument only bounds the `Compound` entry loop
(each of whose iterations consumes at least one byte), so any fuel exceeding
the input length behaves like the un-fuelled Rust loop. -/
def NbtValue.fromReader : Nat → Nat → Bytes → RRes NbtValue
  | 0, _, src => .error (fuelErr, src)
  | fuel + 1, id, src =>
    match id with
    | 0x01 => rbind (readU8 src) fun n s => .ok (.byte n, s)
    | 0x02 => rbind (readU16be src) fun n s => .ok (.short n, s)
    | 0x03 => rbind (readU32be src) fun n s => .ok (.int n, s)
    | 0x04 => rbind (readU64be src) fun n s => .ok (.long n, s)
    | 0x05 => rbind (readU32be src) fun n s => .ok (.float n, s)
    | 0x06 => rbind (readU64be src) fun n s => .ok (.double n, s)
    | 0x07 =>
      rbind (readU32be src) fun n s =>
        rbind (readI8s (i32AsUsize n) s) fun l s2 => .ok (.byteArray l, s2)
    | 0x08 =>
      rbind (readU16be src) fun n s =>
        rbind (readExact n s) fun l s2 =>
          if validUtf8 l then .ok (.string l, s2) else .error (utf8Err, s2)
    | 0x09 =>
      rbind (readU8 src) fun eid s =>
        rbind (readU32be s) fun n s2 =>
          rbind (readListElems fuel eid (i32AsUsize n) s2) fun vs s3 =>
            .ok (.list vs, s3)
    | 0x0a =>
      rbind (readCompoundEntries fuel [] src) fun es s => .ok (.compound es, s)
    | 0x0b =>
      rbind (readU32be src) fun n s =>
        rbind (readU32s (i32AsUsize n) s) fun l s2 => .ok (.intArray l, s2)
    | _ => .error (invalidIdErr, src)

/-- The List element loop of `NbtValue::from_reader` (nbt.rs lines
204-207): `n` recursive payload reads, all with the declared element tag. -/
def readListElems : Nat → Nat → Nat → Bytes → RRes (List NbtValue)
  | _, _, 0, src => .ok ([], src)
  | 0, _, _ + 1, src => .error (fuelErr, src)
  | fuel + 1, eid, n + 1, src =>
    rbind (NbtValue.fromReader fuel eid src) fun v s =>
      rbind (readListElems fuel eid n s) fun vs s2 => .ok (v :: vs, s2)

/-- The Compound entry loop of `NbtValue::from_reader` (nbt.rs lines
211-217): read headers until the `0x00` terminator, inserting each decoded
entry into the map (last write wins on duplicate names). -/
def readCompoundEntries : Nat → List (RStr × NbtValue) → Bytes →
    RRes (List (RStr × NbtValue))
  | 0, _, src => .error (fuelErr, src)
  | fuel + 1, acc, src =>
    rbind (NbtValue.readHeader src) fun h s =>
      if h.1 = 0 then .ok (acc, s)
      else
        rbind (NbtValue.fromReader fuel h.1 s) fun v s2 =>
          readCompoundEntries fuel (hmInsert acc h.2 v).1 s2

end

/-- `struct NbtBlob` (nbt.rs lines 257-260): a title plus the root value. -/
structure NbtBlob where
  title : RStr
  content : NbtValue
deriving Repr

/-- `NbtBlob::new` (nbt.rs lines 264-267): the given title with an empty
Compound root. -/
def NbtBlob.new (title : RStr) : NbtBlob := ⟨title, .compound []⟩

/-- `NbtBlob::write` (nbt.rs lines 299-302): the root's header (tag id and
title) followed by the root's payload. -/
def NbtBlob.write (b : NbtBlob) : List Nat × Option IoError :=
  match NbtValue.write b.content with
  | (bs, e) => (NbtValue.writeHeader b.content b.title ++ bs, e)

/-- `NbtBlob::from_reader` (nbt.rs lines 270-281) with explicit decoder
fuel: read one header, reject a non-Compound root immediately, otherwise
decode the Compound payload. -/
def NbtBlob.fromReaderF (src : Bytes) (fuel : Nat) : RRes NbtBlob :=
  rbind (NbtValue.readHeader src) fun h s =>
    if h.1 ≠ 0x0a then .error (rootErr, s)
    else
      rbind (NbtValue.fromReader fuel h.1 s) fun v s2 =>
        .ok ({ title := h.2, content := v }, s2)

/-- `NbtBlob::from_reader` at fuel `input length + 1`, which the Compound
loop (consuming at least one byte per iteration) can never exhaust. -/
def NbtBlob.fromReader (src : Bytes) : RRes NbtBlob :=
  NbtBlob.fromReaderF src (src.length + 1)

/-- The heterogeneity test performed by `NbtBlob::insert` (nbt.rs lines
327-339) on the inserted value only: a non-empty `List` is rejected when
some element's tag id differs from the first element's. -/
def hetCheck : NbtValue → Bool
  | .list vs =>
    match vs with
    | [] => false
    | v0 :: _ => vs.any fun x => decide (x.id ≠ v0.id)
  | _ => false

/-- `NbtBlob::insert` (nbt.rs lines 323-344).  The outer `Option` models the
`unreachable!()` panic on a non-Compound root (`none` = panic); the normal
return is the updated blob together with the `Option<NbtValue>` the Rust
method returns (`none` both for "no previous value" and for a rejected
heterogeneous `List`, which leaves the blob untouched). -/
def NbtBlob.insert (b : NbtBlob) (name : RStr) (value : NbtValue) :
    Option (NbtBlob × Option NbtValue) :=
  if hetCheck value then some (b, none)
  else
    match b.content with
    | .compound m =>
      match hmInsert m name value with
      | (m2, prev) => some ({ title := b.title, content := .compound m2 }, prev)
    | _ => none

/-- `NbtBlob::len` (nbt.rs lines 347-350): tag byte + 2-byte name length +
title bytes + root payload. -/
def NbtBlob.len (b : NbtBlob) : Nat :=
  1 + 2 + b.title.length + b.content.len

/-- The `Index<&str>` impl for `NbtBlob` (nbt.rs lines 353-362).  The outer
`Option` models the `unreachable!()` panic on a non-Compound root (`none` =
panic); the inner `Option` is the `HashMap::get` result that the Rust code
`unwrap`s. -/
def NbtBlob.indexGet (b : NbtBlob) (s : RStr) : Option (Option NbtValue) :=
  match b.content with
  | .compound m => some (hmGet m s)
  | _ => none

/-- Whether a value is the `Compound` variant. -/
def NbtValue.isCompound : NbtValue → Bool
  | .compound _ => true
  | _ => false

/-- All elements of a list share the first element's tag id (the List
invariant of the format, vacuous for the empty list). -/
def homogIds : List NbtValue → Bool
  | [] => true
  | v0 :: vs => vs.all fun x => decide (x.id = v0.id)

/-- Pairwise-distinct entry names (the Compound unique-key invariant). -/
def distinctKeys : List (RStr × NbtValue) → Bool
  | [] => true
  | (n, _) :: es => (es.all fun p => decide (p.1 ≠ n)) && distinctKeys es

mutual

/-- The invariants every tree reachable from safe Rust satisfies, plus the
format's size bounds from spec §3: scalar payloads are genuine bit patterns
of their width, strings are valid UTF-8 with a length fitting the 16-bit
length field, array and list lengths fit a non-negative `i32`, lists are
homogeneous, and compound keys are unique with likewise-bounded UTF-8
names. -/
def NbtValue.wf : NbtValue → Bool
  | .byte n => decide (n < 2 ^ 8)
  | .short n => decide (n < 2 ^ 16)
  | .int n => decide (n < 2 ^ 32)
  | .long n => decide (n < 2 ^ 64)
  | .float n => decide (n < 2 ^ 32)
  | .double n => decide (n < 2 ^ 64)
  | .byteArray l => decide (l.length < 2 ^ 31) && l.all fun x => decide (x < 2 ^ 8)
  | .string s => decide (s.length < 2 ^ 16) && validUtf8 s
  | .list vs => decide (vs.length < 2 ^ 31) && homogIds vs && wfList vs
  | .compound es => distinctKeys es && wfEntries es
  | .intArray l => decide (l.length < 2 ^ 31) && l.all fun x => decide (x < 2 ^ 32)

/-- `NbtValue.wf` over the elements of a list. -/
def wfList : List NbtValue → Bool
  | [] => true
  | v :: vs => v.wf && wfList vs

/-- `NbtValue.wf` over compound entries, plus each name's bounds. -/
def wfEntries : List (RStr × NbtValue) → Bool
  | [] => true
  | (n, v) :: es =>
    decide (n.length < 2 ^ 16) && validUtf8 n && v.wf && wfEntries es

end

/-- The blob invariants: a Compound root (enforced at construction and at
read time), a title bounded by the 16-bit name-length field and valid UTF-8,
and a well-formed tree. -/
def NbtBlob.wf (b : NbtBlob) : Bool :=
  b.content.isCompound && decide (b.title.length < 2 ^ 16) &&
    validUtf8 b.title && b.content.wf

/-- The reference blob of spec §8: title `""` with entries
name=`"Herobrine"` (String), health=100 (Byte), food=20.0 (Float, bit
pattern 0x41a00000), emeralds=12345 (Short), timestamp=1424778774 (Int), in
insertion order. -/
def herobrineBlob : NbtBlob :=
  ⟨[], .compound
    [([0x6e, 0x61, 0x6d, 0x65],
      .string [0x48, 0x65, 0x72, 0x6f, 0x62, 0x72, 0x69, 0x6e, 0x65]),
     ([0x68, 0x65, 0x61, 0x6c, 0x74, 0x68], .byte 100),
     ([0x66, 0x6f, 0x6f, 0x64], .float 0x41a00000),
     ([0x65, 0x6d, 0x65, 0x72, 0x61, 0x6c, 0x64, 0x73], .short 12345),
     ([0x74, 0x69, 0x6d, 0x65, 0x73, 0x74, 0x61, 0x6d, 0x70],
      .int 1424778774)]⟩

theorem rbind_ok {α β : Type} (a : α) (s : Bytes) (f : α → Bytes → RRes β) :
    rbind (.ok (a, s)) f = f a s := rfl

theorem rbind_error {α β : Type} (e : IoError × Bytes) (f : α → Bytes → RRes β) :
    rbind (.error e) f = .error e := rfl

theorem readU16be_u16be (n : Nat) (r : Bytes) (h : n < 2 ^ 16) :
    readU16be (u16be n ++ r) = .ok (n, r) := by
  simp only [u16be, List.cons_append, List.nil_append, readU16be]
  congr 1
  congr 1
  omega

theorem readU32be_u32be (n : Nat) (r : Bytes) (h : n < 2 ^ 32) :
    readU32be (u32be n ++ r) = .ok (n, r) := by
  simp only [u32be, List.cons_append, List.nil_append, readU32be]
  congr 1
  congr 1
  omega

theorem readU64be_u64be (n : Nat) (r : Bytes) (h : n < 2 ^ 64) :
    readU64be (u64be n ++ r) = .ok (n, r) := by
  simp only [u64be, List.cons_append, List.nil_append, readU64be]
  congr 1
  congr 1
  omega

theorem readExact_append (xs r : Bytes) :
    readExact xs.length (xs ++ r) = .ok (xs, r) := by
  induction xs with
  | nil => rfl
  | cons b s ih =>
    simp only [List.length_cons, List.cons_append, readExact, List.append_eq, ih,
      rbind_ok]

theorem readI8s_append (xs r : Bytes) :
    readI8s xs.length (xs ++ r) = .ok (xs, r) := by
  induction xs with
  | nil => rfl
  | cons b s ih =>
    simp only [List.length_cons, List.cons_append, readI8s, readU8, rbind_ok, ih]

theorem readU32s_append (xs : List Nat) (r : Bytes)
    (h : ∀ x ∈ xs, x < 2 ^ 32) :
    readU32s xs.length ((xs.map u32be).flatten ++ r) = .ok (xs, r) := by
  induction xs with
  | nil => rfl
  | cons b s ih =>
    simp only [List.length_cons, List.map_cons, List.flatten_cons, List.append_assoc,
      readU32s]
    rw [readU32be_u32be b _ (h b (by simp)), rbind_ok,
      ih (fun x hx => h x (by simp [hx])), rbind_ok]

theorem map_mod256_eq_self (l : List Nat) (h : ∀ x ∈ l, x < 2 ^ 8) :
    l.map (· % 256) = l := by
  induction l with
  | nil => rfl
  | cons b s ih =>
    simp only [List.map_cons, List.cons.injEq]
    exact ⟨Nat.mod_eq_of_lt (h b (by simp)),
      ih (fun x hx => h x (by simp [hx]))⟩

theorem NbtValue.id_pos (v : NbtValue) : 1 ≤ v.id := by
  cases v <;> simp [NbtValue.id]

theorem NbtValue.id_eq_ten_iff (v : NbtValue) :
    v.id = 0x0a ↔ v.isCompound = true := by
  cases v <;> simp [NbtValue.id, NbtValue.isCompound]

theorem NbtValue.len_pos (v : NbtValue) : 1 ≤ v.len := by
  cases v <;> simp [NbtValue.len] <;> omega

theorem u16be_length (n : Nat) : (u16be n).length = 2 := rfl

theorem u32be_length (n : Nat) : (u32be n).length = 4 := rfl

theorem u64be_length (n : Nat) : (u64be n).length = 8 := rfl

theorem NbtValue.myInduction (P : NbtValue → Prop)
    (hbyte : ∀ n, P (.byte n)) (hshort : ∀ n, P (.short n))
    (hint : ∀ n, P (.int n)) (hlong : ∀ n, P (.long n))
    (hfloat : ∀ n, P (.float n)) (hdouble : ∀ n, P (.double n))
    (hbarr : ∀ l, P (.byteArray l)) (hstr : ∀ s, P (.string s))
    (hlist : ∀ vs, (∀ x ∈ vs, P x) → P (.list vs))
    (hcomp : ∀ es, (∀ p ∈ es, P p.2) → P (.compound es))
    (hiarr : ∀ l, P (.intArray l)) : ∀ v, P v
  | .byte n => hbyte n
  | .short n => hshort n
  | .int n => hint n
  | .long n => hlong n
  | .float n => hfloat n
  | .double n => hdouble n
  | .byteArray l => hbarr l
  | .string s => hstr s
  | .list vs => hlist vs (fun x hx =>
      NbtValue.myInduction P hbyte hshort hint hlong hfloat hdouble hbarr hstr
        hlist hcomp hiarr x)
  | .compound es => hcomp es (fun p hp =>
      NbtValue.myInduction P hbyte hshort hint hlong hfloat hdouble hbarr hstr
        hlist hcomp hiarr p.2)
  | .intArray l => hiarr l
termination_by v => sizeOf v
decreasing_by
  · have h1 := List.sizeOf_lt_of_mem hx
    simp only [NbtValue.list.sizeOf_spec]
    omega
  · have h1 := List.sizeOf_lt_of_mem hp
    obtain ⟨a, b⟩ := p
    simp only [NbtValue.compound.sizeOf_spec, Prod.mk.sizeOf_spec] at h1 ⊢
    omega

theorem wfList_mem (vs : List NbtValue) (h : wfList vs = true) :
    ∀ x ∈ vs, x.wf = true := by
  induction vs with
  | nil => simp
  | cons v vs ih =>
    simp only [wfList, Bool.and_eq_true] at h
    intro x hx
    rcases List.mem_cons.1 hx with hx | hx
    · exact hx ▸ h.1
    · exact ih h.2 x hx

theorem wfEntries_mem (es : List (RStr × NbtValue)) (h : wfEntries es = true) :
    ∀ p ∈ es, p.1.length < 2 ^ 16 ∧ validUtf8 p.1 = true ∧ p.2.wf = true := by
  induction es with
  | nil => simp
  | cons e es ih =>
    obtain ⟨n, v⟩ := e
    simp only [wfEntries, Bool.and_eq_true, decide_eq_true_eq] at h
    intro p hp
    rcases List.mem_cons.1 hp with hp | hp
    · subst hp; exact ⟨h.1.1.1, h.1.1.2, h.1.2⟩
    · exact ih h.2 p hp

theorem homogIds_mem (v0 : NbtValue) (vs : List NbtValue)
    (h : homogIds (v0 :: vs) = true) : ∀ x ∈ v0 :: vs, x.id = v0.id := by
  simp only [homogIds, List.all_eq_true, decide_eq_true_eq] at h
  intro x hx
  rcases List.mem_cons.1 hx with hx | hx
  · exact hx ▸ rfl
  · exact h x hx

theorem writeElems_ok (fid : Nat) (vs : List NbtValue)
    (h : ∀ x ∈ vs, x.id = fid ∧ (NbtValue.write x).2 = none) :
    writeElems fid vs = ((vs.map fun x => (NbtValue.write x).1).flatten, none) := by
  induction vs with
  | nil => rfl
  | cons v vs ih =>
    obtain ⟨hid, hsucc⟩ := h v (by simp)
    rcases hveq : NbtValue.write v with ⟨bs, e⟩
    rw [hveq] at hsucc
    simp only at hsucc
    subst hsucc
    simp only [writeElems, hid, if_true, hveq, ih (fun x hx => h x (by simp [hx])),
      List.map_cons, List.flatten_cons]

theorem writeEntries_ok (es : List (RStr × NbtValue))
    (h : ∀ p ∈ es, (NbtValue.write p.2).2 = none) :
    writeEntries es =
      ((es.map fun p =>
        NbtValue.writeHeader p.2 p.1 ++ (NbtValue.write p.2).1).flatten ++ [0],
       none) := by
  induction es with
  | nil => rfl
  | cons p es ih =>
    obtain ⟨n, v⟩ := p
    have hsucc := h (n, v) (by simp)
    rcases hveq : NbtValue.write v with ⟨bs, e⟩
    rw [hveq] at hsucc
    simp only at hsucc
    subst hsucc
    simp only [writeEntries, hveq, ih (fun q hq => h q (by simp [hq])),
      List.map_cons, List.flatten_cons, List.append_assoc]

theorem NbtValue.write_ok_of_wf : ∀ v : NbtValue, v.wf = true →
    (NbtValue.write v).2 = none := by
  intro v
  induction v using NbtValue.myInduction with
  | hbyte n => intro _; rfl
  | hshort n => intro _; rfl
  | hint n => intro _; rfl
  | hlong n => intro _; rfl
  | hfloat n => intro _; rfl
  | hdouble n => intro _; rfl
  | hbarr l => intro _; rfl
  | hstr s => intro _; rfl
  | hiarr l => intro _; rfl
  | hlist vs ih =>
    intro hwf
    simp only [NbtValue.wf, Bool.and_eq_true] at hwf
    match vs, ih, hwf with
    | [], _, _ => rfl
    | v0 :: tl, ih, hwf =>
      have hids := homogIds_mem v0 tl hwf.1.2
      have hwfs := wfList_mem _ hwf.2
      rw [NbtValue.write, writeElems_ok v0.id (v0 :: tl)
        (fun x hx => ⟨hids x hx, ih x hx (hwfs x hx)⟩)]
  | hcomp es ih =>
    intro hwf
    simp only [NbtValue.wf, Bool.and_eq_true] at hwf
    have hwfs := wfEntries_mem _ hwf.2
    rw [NbtValue.write, writeEntries_ok es
      (fun p hp => ih p hp (hwfs p hp).2.2)]

theorem writeElems_len (fid : Nat) (vs : List NbtValue)
    (ih : ∀ x ∈ vs, (NbtValue.write x).2 = none →
      ((NbtValue.write x).1).length = x.len) :
    (writeElems fid vs).2 = none →
    ((writeElems fid vs).1).length = lenSum vs := by
  induction vs with
  | nil => intro _; rfl
  | cons v vs ihl =>
    rw [writeElems]
    by_cases hid : v.id = fid
    · simp only [hid, if_true]
      rcases hveq : NbtValue.write v with ⟨bs, e⟩
      cases e with
      | some err => intro h; simp at h
      | none =>
        dsimp only
        rcases hrec : writeElems fid vs with ⟨bs2, e2⟩
        cases e2 with
        | some err => intro h; simp at h
        | none =>
          intro _
          dsimp only
          have h1 : bs.length = v.len := by
            have h2 := ih v (by simp) (by rw [hveq])
            rw [hveq] at h2
            exact h2
          have h3 : bs2.length = lenSum vs := by
            have h4 := ihl (fun x hx hs => ih x (by simp [hx]) hs) (by rw [hrec])
            rw [hrec] at h4
            exact h4
          rw [List.length_append, lenSum, h1, h3]
    · simp only [hid, if_false]
      intro h
      simp at h

theorem writeEntries_len (es : List (RStr × NbtValue))
    (ih : ∀ p ∈ es, (NbtValue.write p.2).2 = none →
      ((NbtValue.write p.2).1).length = p.2.len) :
    (writeEntries es).2 = none →
    ((writeEntries es).1).length = lenEntries es + 1 := by
  induction es with
  | nil => intro _; rfl
  | cons p es ihl =>
    obtain ⟨n, v⟩ := p
    rw [writeEntries]
    rcases hveq : NbtValue.write v with ⟨bs, e⟩
    cases e with
    | some err => intro h; simp at h
    | none =>
      dsimp only
      rcases hrec : writeEntries es with ⟨bs2, e2⟩
      cases e2 with
      | some err => intro h; simp at h
      | none =>
        intro _
        dsimp only
        have h1 : bs.length = v.len := by
          have h2 := ih (n, v) (by simp) (by rw [hveq])
          rw [hveq] at h2
          exact h2
        have h3 : bs2.length = lenEntries es + 1 := by
          have h4 := ihl (fun q hq hs => ih q (by simp [hq]) hs) (by rw [hrec])
          rw [hrec] at h4
          exact h4
        simp only [List.length_append, NbtValue.writeHeader, List.length_cons,
          u16be, lenEntries, h1, h3]
        simp [lenEntries]
        omega

theorem flatten_u32be_length (l : List Nat) :
    ((l.map u32be).flatten).length = 4 * l.length := by
  induction l with
  | nil => rfl
  | cons b s ih =>
    rw [List.map_cons, List.flatten_cons, List.length_append, u32be_length, ih,
      List.length_cons]
    omega

theorem NbtValue.write_len : ∀ v : NbtValue, (NbtValue.write v).2 = none →
    ((NbtValue.write v).1).length = v.len := by
  intro v
  induction v using NbtValue.myInduction with
  | hbyte n => intro _; rfl
  | hshort n => intro _; rfl
  | hint n => intro _; rfl
  | hlong n => intro _; rfl
  | hfloat n => intro _; rfl
  | hdouble n => intro _; rfl
  | hbarr l =>
    intro _
    rw [NbtValue.write]
    dsimp only
    rw [List.length_append, List.length_map, u32be_length, NbtValue.len]
  | hstr s =>
    intro _
    rw [NbtValue.write]
    dsimp only
    rw [List.length_append, u16be_length, NbtValue.len]
  | hiarr l =>
    intro _
    rw [NbtValue.write]
    dsimp only
    rw [List.length_append, flatten_u32be_length, u32be_length, NbtValue.len]
  | hlist vs ih =>
    intro h
    match vs, ih, h with
    | [], _, _ => rfl
    | v0 :: tl, ih, h =>
      rw [NbtValue.write] at h ⊢
      dsimp only at h ⊢
      rcases hw : writeElems v0.id (v0 :: tl) with ⟨bs, e⟩
      cases e with
      | some err => rw [hw] at h; simp at h
      | none =>
        dsimp only
        have h1 : bs.length = lenSum (v0 :: tl) := by
          have h2 := writeElems_len v0.id (v0 :: tl) ih (by rw [hw])
          rw [hw] at h2
          exact h2
        simp only [NbtValue.len, List.length_cons, List.length_append,
          u32be_length, h1]
  | hcomp es ih =>
    intro h
    rw [NbtValue.write] at h ⊢
    rw [NbtValue.len]
    exact writeEntries_len es ih h

theorem fromReader_succ_byte (fuel : Nat) (src : Bytes) :
    NbtValue.fromReader (fuel + 1) 0x01 src =
      rbind (readU8 src) fun n s => .ok (.byte n, s) := rfl

theorem fromReader_succ_short (fuel : Nat) (src : Bytes) :
    NbtValue.fromReader (fuel + 1) 0x02 src =
      rbind (readU16be src) fun n s => .ok (.short n, s) := rfl

theorem fromReader_succ_int (fuel : Nat) (src : Bytes) :
    NbtValue.fromReader (fuel + 1) 0x03 src =
      rbind (readU32be src) fun n s => .ok (.int n, s) := rfl

theorem fromReader_succ_long (fuel : Nat) (src : Bytes) :
    NbtValue.fromReader (fuel + 1) 0x04 src =
      rbind (readU64be src) fun n s => .ok (.long n, s) := rfl

theorem fromReader_succ_float (fuel : Nat) (src : Bytes) :
    NbtValue.fromReader (fuel + 1) 0x05 src =
      rbind (readU32be src) fun n s => .ok (.float n, s) := rfl

theorem fromReader_succ_double (fuel : Nat) (src : Bytes) :
    NbtValue.fromReader (fuel + 1) 0x06 src =
      rbind (readU64be src) fun n s => .ok (.double n, s) := rfl

theorem fromReader_succ_barr (fuel : Nat) (src : Bytes) :
    NbtValue.fromReader (fuel + 1) 0x07 src =
      (rbind (readU32be src) fun n s =>
        rbind (readI8s (i32AsUsize n) s) fun l s2 => .ok (.byteArray l, s2)) := rfl

theorem fromReader_succ_str (fuel : Nat) (src : Bytes) :
    NbtValue.fromReader (fuel + 1) 0x08 src =
      (rbind (readU16be src) fun n s =>
        rbind (readExact n s) fun l s2 =>
          if validUtf8 l then .ok (.string l, s2) else .error (utf8Err, s2)) := rfl

theorem fromReader_succ_list (fuel : Nat) (src : Bytes) :
    NbtValue.fromReader (fuel + 1) 0x09 src =
      (rbind (readU8 src) fun eid s =>
        rbind (readU32be s) fun n s2 =>
          rbind (readListElems fuel eid (i32AsUsize n) s2) fun vs s3 =>
            .ok (.list vs, s3)) := rfl

theorem fromReader_succ_comp (fuel : Nat) (src : Bytes) :
    NbtValue.fromReader (fuel + 1) 0x0a src =
      (rbind (readCompoundEntries fuel [] src) fun es s =>
        .ok (.compound es, s)) := rfl

theorem fromReader_succ_iarr (fuel : Nat) (src : Bytes) :
    NbtValue.fromReader (fuel + 1) 0x0b src =
      (rbind (readU32be src) fun n s =>
        rbind (readU32s (i32AsUsize n) s) fun l s2 => .ok (.intArray l, s2)) := rfl

theorem readListElems_zero (fuel fid : Nat) (src : Bytes) :
    readListElems fuel fid 0 src = .ok ([], src) := by
  cases fuel <;> rfl

theorem readListElems_succ (fuel fid n : Nat) (src : Bytes) :
    readListElems (fuel + 1) fid (n + 1) src =
      (rbind (NbtValue.fromReader fuel fid src) fun v s =>
        rbind (readListElems fuel fid n s) fun vs s2 => .ok (v :: vs, s2)) := rfl

theorem readCompoundEntries_succ (fuel : Nat) (acc : List (RStr × NbtValue))
    (src : Bytes) :
    readCompoundEntries (fuel + 1) acc src =
      (rbind (NbtValue.readHeader src) fun h s =>
        if h.1 = 0 then .ok (acc, s)
        else
          rbind (NbtValue.fromReader fuel h.1 s) fun v s2 =>
            readCompoundEntries fuel (hmInsert acc h.2 v).1 s2) := rfl

theorem readHeader_writeHeader (v : NbtValue) (t : RStr) (r : Bytes)
    (hlen : t.length < 2 ^ 16) (hutf : validUtf8 t = true) :
    NbtValue.readHeader (NbtValue.writeHeader v t ++ r) = .ok ((v.id, t), r) := by
  have hid : v.id ≠ 0 := by
    have := v.id_pos
    omega
  rw [NbtValue.writeHeader, NbtValue.readHeader]
  simp only [List.cons_append, List.append_assoc, readU8, rbind_ok, if_neg hid]
  rw [readU16be_u16be t.length (t ++ r) hlen, rbind_ok]
  by_cases h0 : t.length = 0
  · have ht : t = [] := List.eq_nil_of_length_eq_zero h0
    subst ht
    simp
  · simp only [ne_eq, h0, not_false_eq_true, if_true,
      readExact_append t r, rbind_ok, hutf, if_pos]

theorem hmInsert_absent (m : List (RStr × NbtValue)) (n : RStr) (v : NbtValue)
    (h : ∀ p ∈ m, p.1 ≠ n) : hmInsert m n v = (m ++ [(n, v)], none) := by
  induction m with
  | nil => rfl
  | cons q m ih =>
    obtain ⟨k, w⟩ := q
    have hk : k ≠ n := h (k, w) (by simp)
    rw [hmInsert, if_neg hk, ih (fun p hp => h p (by simp [hp]))]
    rfl

theorem hmInsert_snd (m : List (RStr × NbtValue)) (n : RStr) (v : NbtValue) :
    (hmInsert m n v).2 = hmGet m n := by
  induction m with
  | nil => rfl
  | cons q m ih =>
    obtain ⟨k, w⟩ := q
    rw [hmInsert, hmGet]
    by_cases hk : k = n
    · simp [hk]
    · rcases hrec : hmInsert m n v with ⟨m2, prev⟩
      rw [if_neg hk, if_neg hk]
      dsimp only
      rw [← ih, hrec]

theorem distinctKeys_cons (n : RStr) (v : NbtValue)
    (es : List (RStr × NbtValue)) (h : distinctKeys ((n, v) :: es) = true) :
    (∀ p ∈ es, p.1 ≠ n) ∧ distinctKeys es = true := by
  simp only [distinctKeys, Bool.and_eq_true, List.all_eq_true,
    decide_eq_true_eq] at h
  exact h

/-- The round-trip property of a single value: decoding its own encoding
(with any fuel exceeding its length, against any following input) recovers
it exactly. -/
def DecodesBack (v : NbtValue) : Prop :=
  ∀ fuel rest, v.wf = true → v.len < fuel →
    NbtValue.fromReader fuel v.id ((NbtValue.write v).1 ++ rest) = .ok (v, rest)

theorem readListElems_write (fid : Nat) (vs : List NbtValue) :
    ∀ fuel rest, (∀ x ∈ vs, DecodesBack x) →
    (∀ x ∈ vs, x.wf = true ∧ x.id = fid) →
    lenSum vs + 2 ≤ fuel →
    readListElems fuel fid vs.length
      ((vs.map fun x => (NbtValue.write x).1).flatten ++ rest) = .ok (vs, rest) := by
  induction vs with
  | nil =>
    intro fuel rest _ _ _
    cases fuel <;> rfl
  | cons v vs ih =>
    intro fuel rest hdec hwf hfuel
    rw [lenSum] at hfuel
    have hvpos := v.len_pos
    match fuel, hfuel with
    | fuel + 1, hfuel =>
      rw [List.length_cons, readListElems_succ, List.map_cons, List.flatten_cons,
        List.append_assoc]
      have hv := hdec v (by simp) fuel
        ((vs.map fun x => (NbtValue.write x).1).flatten ++ rest)
        (hwf v (by simp)).1 (by omega)
      rw [(hwf v (by simp)).2] at hv
      rw [hv, rbind_ok,
        ih fuel rest (fun x hx => hdec x (by simp [hx]))
          (fun x hx => hwf x (by simp [hx])) (by omega),
        rbind_ok]

theorem readCompoundEntries_write (es : List (RStr × NbtValue)) :
    ∀ fuel acc rest, (∀ p ∈ es, DecodesBack p.2) →
    (∀ p ∈ es, p.1.length < 2 ^ 16 ∧ validUtf8 p.1 = true ∧ p.2.wf = true) →
    distinctKeys es = true →
    (∀ p ∈ es, ∀ q ∈ acc, q.1 ≠ p.1) →
    lenEntries es + 1 ≤ fuel →
    readCompoundEntries fuel acc
      ((es.map fun p =>
        NbtValue.writeHeader p.2 p.1 ++ (NbtValue.write p.2).1).flatten ++
        [0] ++ rest) = .ok (acc ++ es, rest) := by
  induction es with
  | nil =>
    intro fuel acc rest _ _ _ _ hfuel
    match fuel, hfuel with
    | fuel + 1, _ =>
      rw [readCompoundEntries_succ]
      simp only [List.map_nil, List.flatten_nil, List.nil_append,
        List.cons_append]
      rw [NbtValue.readHeader]
      simp [readU8, rbind_ok]
  | cons p es ih =>
    intro fuel acc rest hdec hwf hkeys hdisj hfuel
    obtain ⟨n, v⟩ := p
    rw [lenEntries] at hfuel
    obtain ⟨hk1, hk2⟩ := distinctKeys_cons n v es hkeys
    match fuel, hfuel with
    | fuel + 1, hfuel =>
      rw [readCompoundEntries_succ, List.map_cons, List.flatten_cons]
      dsimp only
      simp only [List.append_assoc]
      rw [readHeader_writeHeader v n _ (hwf (n, v) (by simp)).1
        (hwf (n, v) (by simp)).2.1, rbind_ok]
      have hid : v.id ≠ 0 := by
        have := v.id_pos
        omega
      rw [if_neg hid]
      have hv := hdec (n, v) (by simp) fuel
        ((es.map fun p =>
          NbtValue.writeHeader p.2 p.1 ++ (NbtValue.write p.2).1).flatten ++
          ([0] ++ rest))
        (hwf (n, v) (by simp)).2.2 (by dsimp only; omega)
      dsimp only at hv
      rw [hv, rbind_ok]
      rw [hmInsert_absent acc n v (fun q hq => hdisj (n, v) (by simp) q hq)]
      have hrec := ih fuel (acc ++ [(n, v)]) rest
        (fun q hq => hdec q (by simp [hq]))
        (fun q hq => hwf q (by simp [hq]))
        hk2
        (by
          intro q hq r hr
          rcases List.mem_append.1 hr with hr | hr
          · exact hdisj q (by simp [hq]) r hr
          · have hrq : r = (n, v) := by simpa using hr
            subst hrq
            exact fun hc => (hk1 q hq) hc.symm)
        (by omega)
      simp only [List.append_assoc] at hrec
      rw [hrec]
      simp

theorem NbtValue.decodesBack : ∀ v : NbtValue, DecodesBack v := by
  intro v
  induction v using NbtValue.myInduction with
  | hbyte n =>
    intro fuel rest hwf hlen
    rw [NbtValue.len] at hlen
    rw [NbtValue.wf, decide_eq_true_eq] at hwf
    match fuel, hlen with
    | fuel + 1, _ =>
      rw [NbtValue.id, NbtValue.write]
      dsimp only
      rw [Nat.mod_eq_of_lt (show n < 256 by omega), fromReader_succ_byte]
      rfl
  | hshort n =>
    intro fuel rest hwf hlen
    rw [NbtValue.len] at hlen
    rw [NbtValue.wf, decide_eq_true_eq] at hwf
    match fuel, hlen with
    | fuel + 1, _ =>
      rw [NbtValue.id, NbtValue.write, fromReader_succ_short]
      dsimp only
      rw [readU16be_u16be n rest hwf, rbind_ok]
  | hint n =>
    intro fuel rest hwf hlen
    rw [NbtValue.len] at hlen
    rw [NbtValue.wf, decide_eq_true_eq] at hwf
    match fuel, hlen with
    | fuel + 1, _ =>
      rw [NbtValue.id, NbtValue.write, fromReader_succ_int]
      dsimp only
      rw [readU32be_u32be n rest hwf, rbind_ok]
  | hlong n =>
    intro fuel rest hwf hlen
    rw [NbtValue.len] at hlen
    rw [NbtValue.wf, decide_eq_true_eq] at hwf
    match fuel, hlen with
    | fuel + 1, _ =>
      rw [NbtValue.id, NbtValue.write, fromReader_succ_long]
      dsimp only
      rw [readU64be_u64be n rest hwf, rbind_ok]
  | hfloat n =>
    intro fuel rest hwf hlen
    rw [NbtValue.len] at hlen
    rw [NbtValue.wf, decide_eq_true_eq] at hwf
    match fuel, hlen with
    | fuel + 1, _ =>
      rw [NbtValue.id, NbtValue.write, fromReader_succ_float]
      dsimp only
      rw [readU32be_u32be n rest hwf, rbind_ok]
  | hdouble n =>
    intro fuel rest hwf hlen
    rw [NbtValue.len] at hlen
    rw [NbtValue.wf, decide_eq_true_eq] at hwf
    match fuel, hlen with
    | fuel + 1, _ =>
      rw [NbtValue.id, NbtValue.write, fromReader_succ_double]
      dsimp only
      rw [readU64be_u64be n rest hwf, rbind_ok]
  | hbarr l =>
    intro fuel rest hwf hlen
    rw [NbtValue.len] at hlen
    simp only [NbtValue.wf, Bool.and_eq_true, decide_eq_true_eq,
      List.all_eq_true] at hwf
    match fuel, hlen with
    | fuel + 1, _ =>
      rw [NbtValue.id, NbtValue.write]
      dsimp only
      rw [map_mod256_eq_self l hwf.2, List.append_assoc, fromReader_succ_barr,
        readU32be_u32be l.length (l ++ rest) (by omega), rbind_ok, i32AsUsize,
        if_pos hwf.1, readI8s_append l rest, rbind_ok]
  | hstr s =>
    intro fuel rest hwf hlen
    rw [NbtValue.len] at hlen
    simp only [NbtValue.wf, Bool.and_eq_true, decide_eq_true_eq] at hwf
    match fuel, hlen with
    | fuel + 1, _ =>
      rw [NbtValue.id, NbtValue.write]
      dsimp only
      rw [List.append_assoc, fromReader_succ_str,
        readU16be_u16be s.length (s ++ rest) hwf.1, rbind_ok,
        readExact_append s rest, rbind_ok, if_pos hwf.2]
  | hiarr l =>
    intro fuel rest hwf hlen
    rw [NbtValue.len] at hlen
    simp only [NbtValue.wf, Bool.and_eq_true, decide_eq_true_eq,
      List.all_eq_true] at hwf
    match fuel, hlen with
    | fuel + 1, _ =>
      rw [NbtValue.id, NbtValue.write]
      dsimp only
      rw [List.append_assoc, fromReader_succ_iarr,
        readU32be_u32be l.length _ (by omega), rbind_ok, i32AsUsize,
        if_pos hwf.1,
        readU32s_append l rest (fun x hx => (hwf.2 x hx)), rbind_ok]
  | hlist vs ih =>
    intro fuel rest hwf hlen
    rw [NbtValue.len] at hlen
    match fuel, hlen with
    | fuel + 1, hlen =>
      match vs, ih, hwf, hlen with
      | [], _, _, _ =>
        have hbytes : (NbtValue.write (NbtValue.list [])).1 ++ rest =
            1 :: (u32be 0 ++ rest) := rfl
        rw [NbtValue.id, hbytes, fromReader_succ_list]
        simp only [readU8, rbind_ok]
        rw [readU32be_u32be 0 rest (by norm_num), rbind_ok]
        have h0 : i32AsUsize 0 = 0 := rfl
        rw [h0, readListElems_zero, rbind_ok]
      | v0 :: tl, ih, hwf, hlen =>
        simp only [NbtValue.wf, Bool.and_eq_true, decide_eq_true_eq] at hwf
        have hids := homogIds_mem v0 tl hwf.1.2
        have hwfs := wfList_mem _ hwf.2
        have hwelems := writeElems_ok v0.id (v0 :: tl)
          (fun x hx => ⟨hids x hx, NbtValue.write_ok_of_wf x (hwfs x hx)⟩)
        rw [NbtValue.id, NbtValue.write]
        dsimp only
        rw [hwelems]
        dsimp only
        simp only [List.cons_append, List.append_assoc]
        rw [fromReader_succ_list]
        simp only [readU8, rbind_ok]
        rw [readU32be_u32be (v0 :: tl).length _ (by
          have := hwf.1.1
          omega), rbind_ok, i32AsUsize, if_pos hwf.1.1,
          readListElems_write v0.id (v0 :: tl) fuel rest ih
            (fun x hx => ⟨hwfs x hx, hids x hx⟩)
            (by rw [lenSum] at hlen ⊢; omega),
          rbind_ok]
  | hcomp es ih =>
    intro fuel rest hwf hlen
    rw [NbtValue.len] at hlen
    simp only [NbtValue.wf, Bool.and_eq_true] at hwf
    match fuel, hlen with
    | fuel + 1, hlen =>
      have hwfs := wfEntries_mem es hwf.2
      have hwent := writeEntries_ok es
        (fun p hp => NbtValue.write_ok_of_wf p.2 (hwfs p hp).2.2)
      rw [NbtValue.id, NbtValue.write, hwent]
      dsimp only
      rw [fromReader_succ_comp,
        readCompoundEntries_write es fuel [] rest ih hwfs hwf.1
          (fun p _ q hq => absurd hq (List.not_mem_nil q))
          (by omega),
        rbind_ok, List.nil_append]

/-- Claim C1: for every Named Blob satisfying the data-model invariants
(Compound root, homogeneous Lists, unique-keyed Compounds, and the format's
size and UTF-8 bounds from spec §3), `NbtBlob::write` succeeds and
`NbtBlob::from_reader` on the produced bytes returns a blob structurally
equal to the original (in the association-list model the entry order is
itself preserved, so equality up to Compound key order follows a fortiori),
consuming the whole input. -/
theorem c1_round_trip (b : NbtBlob) (h : NbtBlob.wf b = true) :
    (NbtBlob.write b).2 = none ∧
      NbtBlob.fromReader ((NbtBlob.write b).1) = .ok (b, []) := by
  obtain ⟨t, c⟩ := b
  simp only [NbtBlob.wf, Bool.and_eq_true, decide_eq_true_eq] at h
  obtain ⟨⟨⟨hcomp, htlen⟩, htutf⟩, hcwf⟩ := h
  have hsucc := NbtValue.write_ok_of_wf c hcwf
  rcases hw : NbtValue.write c with ⟨bs, e⟩
  rw [hw] at hsucc
  dsimp only at hsucc
  subst hsucc
  have hbs : bs.length = c.len := by
    have h2 := NbtValue.write_len c (by rw [hw])
    rw [hw] at h2
    exact h2
  have hwrite : NbtBlob.write ⟨t, c⟩ = (NbtValue.writeHeader c t ++ bs, none) := by
    rw [NbtBlob.write]
    dsimp only
    rw [hw]
  refine ⟨by rw [hwrite], ?_⟩
  rw [hwrite]
  dsimp only
  rw [NbtBlob.fromReader, NbtBlob.fromReaderF,
    readHeader_writeHeader c t bs htlen htutf, rbind_ok]
  have hid10 : c.id = 0x0a := (NbtValue.id_eq_ten_iff c).2 hcomp
  dsimp only
  rw [hid10, if_neg (by simp)]
  have hv := NbtValue.decodesBack c
    ((NbtValue.writeHeader c t ++ bs).length + 1) [] hcwf (by
      rw [List.length_append, NbtValue.writeHeader, hbs]
      simp only [List.length_cons, List.length_append, u16be_length]
      omega)
  rw [List.append_nil, hw] at hv
  dsimp only at hv
  rw [← hid10, hv, rbind_ok]

/-- Witness for C1: the Herobrine reference blob satisfies the invariants,
its write succeeds, and decoding the written bytes returns it exactly. -/
theorem c1_round_trip_witness :
    NbtBlob.wf herobrineBlob = true ∧
      ((NbtBlob.write herobrineBlob).2 = none ∧
        NbtBlob.fromReader ((NbtBlob.write herobrineBlob).1) =
          .ok (herobrineBlob, [])) :=
  ⟨rfl, c1_round_trip herobrineBlob rfl⟩

/-- Claim C2: whenever a write succeeds (which requires every List
encountered to be homogeneous), `NbtValue::len` equals the exact number of
payload bytes `NbtValue::write` emits, and `NbtBlob::len` equals the number
of bytes `NbtBlob::write` emits (1 tag byte + 2 name-length bytes + title
bytes + root payload). -/
theorem c2_length_oracle :
    (∀ v : NbtValue, (NbtValue.write v).2 = none →
      ((NbtValue.write v).1).length = v.len) ∧
    (∀ b : NbtBlob, (NbtBlob.write b).2 = none →
      ((NbtBlob.write b).1).length = b.len) := by
  refine ⟨NbtValue.write_len, ?_⟩
  intro b h
  obtain ⟨t, c⟩ := b
  rw [NbtBlob.write] at h ⊢
  dsimp only at h ⊢
  rw [List.length_append, NbtValue.write_len c h, NbtValue.writeHeader,
    NbtBlob.len]
  simp only [List.length_cons, List.length_append, u16be_length]

/-- Witness for C2: a Byte payload and the empty blob, written and
measured. -/
theorem c2_length_oracle_witness :
    (NbtValue.write (NbtValue.byte 1)).2 = none ∧
    ((NbtValue.write (NbtValue.byte 1)).1).length = (NbtValue.byte 1).len ∧
    (NbtBlob.write (NbtBlob.new [])).2 = none ∧
    ((NbtBlob.write (NbtBlob.new [])).1).length = (NbtBlob.new []).len :=
  ⟨rfl, c2_length_oracle.1 (NbtValue.byte 1) rfl, rfl,
    c2_length_oracle.2 (NbtBlob.new []) rfl⟩

/-- Claim C3 counterexample: the Herobrine reference blob's
`NbtBlob::len` is not 59 (the code's own test vector is 72 bytes and its
assertion `bytes.len() == nbt.len()` passes). -/
theorem c3_len_counterexample : NbtBlob.len herobrineBlob ≠ 59 := by decide

/-- Claim C3 amended: the Herobrine reference blob's `NbtBlob::len` is
exactly 72 bytes. -/
theorem c3_len_amended : NbtBlob.len herobrineBlob = 72 := by decide

/-- Claim C4: inserting a non-empty List whose elements do not all share
the first element's tag id returns the absent outcome (`None`) and leaves
the blob completely unchanged; inserting any other value performs a
`HashMap::insert` on the root Compound and reports the value previously
stored under that name (or absence). -/
theorem c4_insert (b : NbtBlob) (name : RStr) (v : NbtValue) :
    (hetCheck v = true → NbtBlob.insert b name v = some (b, none)) ∧
    (hetCheck v = false → ∀ m, b.content = .compound m →
      NbtBlob.insert b name v =
        some ({ title := b.title, content := .compound (hmInsert m name v).1 },
          hmGet m name)) := by
  constructor
  · intro h
    rw [NbtBlob.insert, if_pos h]
  · intro h m hm
    rw [NbtBlob.insert, if_neg (by simp [h]), hm]
    dsimp only
    rcases hmi : hmInsert m name v with ⟨m2, prev⟩
    have hprev : prev = hmGet m name := by
      have h2 := hmInsert_snd m name v
      rw [hmi] at h2
      exact h2
    rw [hprev]

/-- Witness for C4: the heterogeneous `[Byte(1), Short(1)]` list is
rejected on a fresh blob, and a Byte insert is performed normally. -/
theorem c4_insert_witness :
    hetCheck (NbtValue.list [NbtValue.byte 1, NbtValue.short 1]) = true ∧
    NbtBlob.insert (NbtBlob.new []) [0x6c]
      (NbtValue.list [NbtValue.byte 1, NbtValue.short 1]) =
      some (NbtBlob.new [], none) ∧
    hetCheck (NbtValue.byte 5) = false ∧
    NbtBlob.insert (NbtBlob.new []) [0x6c] (NbtValue.byte 5) =
      some ({ title := (NbtBlob.new []).title,
              content := .compound (hmInsert [] [0x6c] (NbtValue.byte 5)).1 },
        hmGet [] [0x6c]) :=
  ⟨rfl,
   (c4_insert (NbtBlob.new []) [0x6c]
     (NbtValue.list [NbtValue.byte 1, NbtValue.short 1])).1 rfl,
   rfl,
   (c4_insert (NbtBlob.new []) [0x6c] (NbtValue.byte 5)).2 rfl [] rfl⟩

/-- Claim C5: whenever the first header decodes to a tag id other than
0x0a, `NbtBlob::from_reader` fails with the format-violation root error
(kind `InvalidInput`, distinct from the I/O truncation kind) and the input
remaining at the failure is exactly what followed the header (no further
bytes consumed); in particular the single byte 0x00 fails this way. -/
theorem c5_root_rejection :
    (∀ (src : Bytes) (id : Nat) (name : RStr) (rest : Bytes),
      NbtValue.readHeader src = .ok ((id, name), rest) → id ≠ 0x0a →
      NbtBlob.fromReader src = .error (rootErr, rest) ∧
        rootErr.kind = ErrorKind.invalidInput ∧ rootErr.kind ≠ eofErr.kind) ∧
    NbtBlob.fromReader [0x00] = .error (rootErr, []) := by
  constructor
  · intro src id name rest hh hid
    refine ⟨?_, rfl, by decide⟩
    rw [NbtBlob.fromReader, NbtBlob.fromReaderF, hh, rbind_ok]
    dsimp only
    rw [if_pos hid]
  · rfl

/-- Witness for C5 at the single terminator byte 0x00. -/
theorem c5_root_rejection_witness :
    NbtValue.readHeader [0x00] = .ok ((0, []), []) ∧
      (NbtBlob.fromReader [0x00] = .error (rootErr, []) ∧
        rootErr.kind = ErrorKind.invalidInput ∧ rootErr.kind ≠ eofErr.kind) :=
  ⟨rfl, c5_root_rejection.1 [0x00] 0 [] [] rfl (by decide)⟩

theorem writeElems_partial (fid : Nat) (xs : List NbtValue) (off : NbtValue)
    (tail : List NbtValue)
    (hgood : ∀ x ∈ xs, x.id = fid ∧ (NbtValue.write x).2 = none)
    (hoff : off.id ≠ fid) :
    writeElems fid (xs ++ off :: tail) =
      ((xs.map fun x => (NbtValue.write x).1).flatten, some hetErr) := by
  induction xs with
  | nil =>
    rw [List.nil_append, writeElems, if_neg hoff]
    rfl
  | cons x xs ih =>
    obtain ⟨hid, hsucc⟩ := hgood x (by simp)
    rcases hveq : NbtValue.write x with ⟨bs, e⟩
    rw [hveq] at hsucc
    dsimp only at hsucc
    subst hsucc
    rw [List.cons_append, writeElems, if_pos hid, hveq,
      ih (fun y hy => hgood y (by simp [hy]))]
    simp [hveq]

/-- Claim C6: for a non-empty List, `NbtValue::write` derives the element
tag from the first element and emits that tag byte and the 4-byte count,
then the elements in order; if some element's tag differs from the first,
the write aborts with the `InvalidInput` error "List values must be
homogeneous", and the bytes already emitted (element tag, count, and the
payloads of the elements before the offender) are kept, not rolled back. -/
theorem c6_list_write_abort :
    (∀ (v0 : NbtValue) (mid : List NbtValue) (off : NbtValue)
      (tail : List NbtValue),
      (∀ x ∈ v0 :: mid, x.id = v0.id ∧ x.wf = true) → off.id ≠ v0.id →
      NbtValue.write (.list (v0 :: (mid ++ off :: tail))) =
        (v0.id :: u32be (v0 :: (mid ++ off :: tail)).length ++
          (((v0 :: mid).map fun x => (NbtValue.write x).1).flatten),
         some hetErr) ∧ hetErr.kind = ErrorKind.invalidInput) ∧
    (∀ (v0 : NbtValue) (tl : List NbtValue),
      (∀ x ∈ v0 :: tl, x.id = v0.id ∧ (NbtValue.write x).2 = none) →
      NbtValue.write (.list (v0 :: tl)) =
        (v0.id :: u32be (v0 :: tl).length ++
          (((v0 :: tl).map fun x => (NbtValue.write x).1).flatten), none)) := by
  constructor
  · intro v0 mid off tail hgood hoff
    refine ⟨?_, rfl⟩
    have hsplit : v0 :: (mid ++ off :: tail) = (v0 :: mid) ++ off :: tail := by
      simp
    rw [NbtValue.write]
    dsimp only
    rw [hsplit, writeElems_partial v0.id (v0 :: mid) off tail
      (fun x hx => ⟨(hgood x hx).1, NbtValue.write_ok_of_wf x (hgood x hx).2⟩)
      hoff]
  · intro v0 tl hgood
    rw [NbtValue.write]
    dsimp only
    rw [writeElems_ok v0.id (v0 :: tl) hgood]

/-- Witness for C6 at the list `[Byte(1), Short(1)]`: the tag byte 0x01 and
count are emitted, then the write aborts with the homogeneity error. -/
theorem c6_list_write_abort_witness :
    (∀ x ∈ [NbtValue.byte 1], x.id = (NbtValue.byte 1).id ∧ x.wf = true) ∧
    (NbtValue.short 1).id ≠ (NbtValue.byte 1).id ∧
    (NbtValue.write
        (.list ((NbtValue.byte 1) :: ([] ++ (NbtValue.short 1) :: []))) =
      ((NbtValue.byte 1).id ::
        u32be ((NbtValue.byte 1) :: ([] ++ (NbtValue.short 1) :: [])).length ++
        ((([NbtValue.byte 1]).map fun x => (NbtValue.write x).1).flatten),
       some hetErr) ∧ hetErr.kind = ErrorKind.invalidInput) :=
  ⟨by decide, by decide,
   c6_list_write_abort.1 (NbtValue.byte 1) [] (NbtValue.short 1) []
     (by decide) (by decide)⟩

/-- Claim C7 counterexample: the conversion at the end of
`NbtValue::write` maps the byte-order layer's `UnexpectedEOF` (a short
write from the underlying sink, e.g. a full device accepting zero bytes)
into an error of kind `InvalidInput` — the same kind as the format
violation for heterogeneous lists — so a sink I/O failure on a scalar
payload is reported in the format-violation class, contradicting the claim
that it never is. -/
theorem c7_io_format_counterexample :
    wrapByteorderResult (some .unexpectedEOF) =
      some ⟨ErrorKind.invalidInput, "invalid byte ordering", none⟩ ∧
    (wrapByteorderResult (some .unexpectedEOF)).map IoError.kind =
      some hetErr.kind :=
  ⟨rfl, rfl⟩

/-- Claim C7 amended: a genuine underlying `io::Error` propagates through
the byte-order wrapping unchanged, and read-side truncation surfaces with a
non-`InvalidInput` kind, distinct from the format-violation errors; but a
short write reported by the byte-order layer as `UnexpectedEOF` is wrapped
as the `InvalidInput` error "invalid byte ordering", which shares its kind
with the format violations. -/
theorem c7_error_classes :
    (∀ e : IoError, wrapByteorderResult (some (.io e)) = some e) ∧
    wrapByteorderResult none = none ∧
    eofErr.kind ≠ ErrorKind.invalidInput ∧
    rootErr.kind = ErrorKind.invalidInput ∧
    hetErr.kind = ErrorKind.invalidInput ∧
    NbtBlob.fromReader [0x0a, 0x00] = .error (eofErr, []) ∧
    wrapByteorderResult (some .unexpectedEOF) =
      some ⟨ErrorKind.invalidInput, "invalid byte ordering", none⟩ :=
  ⟨fun _ => rfl, rfl, by decide, rfl, rfl, rfl, rfl⟩

/-- Witness for C7 (amended) at a concrete propagated `io::Error`. -/
theorem c7_error_classes_witness :
    wrapByteorderResult (some (.io eofErr)) = some eofErr :=
  c7_error_classes.1 eofErr

/-- Claim C8: an empty List is written as element-tag byte 0x01 followed by
a zero 4-byte count (no element inspection is possible or performed), and
the blob titled "" holding one empty List named "list" encodes to exactly
the documented byte sequence. -/
theorem c8_empty_list :
    NbtValue.write (.list []) = ([0x01, 0x00, 0x00, 0x00, 0x00], none) ∧
    NbtBlob.write ⟨[], .compound [([0x6c, 0x69, 0x73, 0x74], .list [])]⟩ =
      ([0x0a, 0x00, 0x00,
        0x09, 0x00, 0x04, 0x6c, 0x69, 0x73, 0x74,
        0x01, 0x00, 0x00, 0x00, 0x00,
        0x00], none) :=
  ⟨rfl, rfl⟩

theorem isCompound_exists (v : NbtValue) (h : v.isCompound = true) :
    ∃ m, v = .compound m := by
  cases v <;> simp [NbtValue.isCompound] at h ⊢

theorem fromReader_ten_isCompound (fuel : Nat) (src : Bytes) (v : NbtValue)
    (rest : Bytes) (h : NbtValue.fromReader fuel 0x0a src = .ok (v, rest)) :
    v.isCompound = true := by
  match fuel with
  | 0 => simp [NbtValue.fromReader] at h
  | fuel + 1 =>
    rw [fromReader_succ_comp] at h
    rcases hr : readCompoundEntries fuel [] src with e | p
    · rw [hr, rbind_error] at h
      exact absurd h (by simp)
    · obtain ⟨es, s⟩ := p
      rw [hr, rbind_ok] at h
      simp only [Except.ok.injEq, Prod.mk.injEq] at h
      rw [← h.1]
      rfl

/-- Claim C9: every blob produced by `new` or by a successful
`from_reader` (to which `from_gzip`/`from_zlib` delegate after
decompression) has a Compound root; `insert` preserves that invariant and,
on such a blob, never reaches its `unreachable!()` branch; and on such a
blob the `Index` lookup never reaches its `unreachable!()` branch either.
-/
theorem c9_compound_root_invariant :
    (∀ t, (NbtBlob.new t).content.isCompound = true) ∧
    (∀ (src : Bytes) (fuel : Nat) (b : NbtBlob) (rest : Bytes),
      NbtBlob.fromReaderF src fuel = .ok (b, rest) →
      b.content.isCompound = true) ∧
    (∀ (b : NbtBlob) (name : RStr) (v : NbtValue),
      b.content.isCompound = true →
      ∃ b2 prev, NbtBlob.insert b name v = some (b2, prev) ∧
        b2.content.isCompound = true) ∧
    (∀ (b : NbtBlob) (s : RStr), b.content.isCompound = true →
      (NbtBlob.indexGet b s).isSome = true) := by
  refine ⟨fun t => rfl, ?_, ?_, ?_⟩
  · intro src fuel b rest h
    rw [NbtBlob.fromReaderF] at h
    rcases hh : NbtValue.readHeader src with e | p
    · rw [hh, rbind_error] at h
      exact absurd h (by simp)
    · obtain ⟨⟨id, name⟩, s⟩ := p
      rw [hh, rbind_ok] at h
      dsimp only at h
      by_cases hid : id ≠ 0x0a
      · rw [if_pos hid] at h
        exact absurd h (by simp)
      · rw [if_neg hid] at h
        push_neg at hid
        subst hid
        rcases hv : NbtValue.fromReader fuel 0x0a s with e2 | p2
        · rw [hv, rbind_error] at h
          exact absurd h (by simp)
        · obtain ⟨v, s2⟩ := p2
          rw [hv, rbind_ok] at h
          simp only [Except.ok.injEq, Prod.mk.injEq] at h
          rw [← h.1]
          exact fromReader_ten_isCompound fuel s v s2 hv
  · intro b name v hc
    by_cases hhet : hetCheck v = true
    · exact ⟨b, none, by rw [NbtBlob.insert, if_pos hhet], hc⟩
    · obtain ⟨m, hm⟩ := isCompound_exists b.content hc
      refine ⟨{ title := b.title, content := .compound (hmInsert m name v).1 },
        (hmInsert m name v).2, ?_, rfl⟩
      rw [NbtBlob.insert, if_neg hhet, hm]
  · intro b s hc
    obtain ⟨m, hm⟩ := isCompound_exists b.content hc
    rw [NbtBlob.indexGet, hm]
    rfl

/-- Witness for C9: a fresh blob, a decoded empty document, a Byte insert
and an index lookup, all with Compound roots. -/
theorem c9_compound_root_invariant_witness :
    (NbtBlob.new [0x61]).content.isCompound = true ∧
    ({ title := [], content := NbtValue.compound [] } : NbtBlob).content.isCompound
      = true ∧
    (∃ b2 prev,
      NbtBlob.insert (NbtBlob.new []) [0x61] (NbtValue.byte 1) =
        some (b2, prev) ∧ b2.content.isCompound = true) ∧
    (NbtBlob.indexGet (NbtBlob.new []) [0x61]).isSome = true :=
  ⟨c9_compound_root_invariant.1 [0x61],
   c9_compound_root_invariant.2.1 [0x0a, 0x00, 0x00, 0x00] 5
     { title := [], content := NbtValue.compound [] } [] rfl,
   c9_compound_root_invariant.2.2.1 (NbtBlob.new []) [0x61] (NbtValue.byte 1)
     rfl,
   c9_compound_root_invariant.2.2.2 (NbtBlob.new []) [0x61] rfl⟩

/-- Claim C10: `NbtBlob::insert`'s homogeneity check inspects only the
top-level value: a Compound wrapping the heterogeneous list
`[Byte(1), Short(1)]` under the name "x" passes the check and is inserted
normally under "bad" into a fresh blob, yet writing the resulting blob
fails with the list-homogeneity format violation. -/
theorem c10_shallow_check :
    hetCheck (NbtValue.compound
      [([0x78], NbtValue.list [NbtValue.byte 1, NbtValue.short 1])]) = false ∧
    hetCheck (NbtValue.list [NbtValue.byte 1, NbtValue.short 1]) = true ∧
    NbtBlob.insert (NbtBlob.new []) [0x62, 0x61, 0x64]
      (NbtValue.compound
        [([0x78], NbtValue.list [NbtValue.byte 1, NbtValue.short 1])]) =
      some (⟨[], .compound [([0x62, 0x61, 0x64],
        NbtValue.compound
          [([0x78], NbtValue.list [NbtValue.byte 1, NbtValue.short 1])])]⟩,
        none) ∧
    (NbtBlob.write ⟨[], .compound [([0x62, 0x61, 0x64],
        NbtValue.compound
          [([0x78], NbtValue.list [NbtValue.byte 1, NbtValue.short 1])])]⟩).2 =
      some hetErr :=
  ⟨rfl, rfl, rfl, rfl⟩
